import Mathlib

/-!
Verification development for `app.py` of the python-async-requests repository.

The program fetches a paginated asset catalog from the Messari API with a
fixed-width batch of concurrent page requests, merges the fetched assets into a
CSV-backed table keyed by asset id, sorts the merged table by the transient
`Order` column, drops that column, and saves the result.

The shallow embedding below models:
  * one asset / one table row as a record of the fields the program touches
    (the floating-point price is represented by an abstract `Option Int` value,
    equality of field values being all the claims use);
  * the pandas DataFrame keyed by the `ID` index as an association list in row
    order; `to_dict` / `from_dict` round-trips preserve that order, with a key
    written for the first time appended at the end (Python dicts preserve
    insertion order);
  * `sort_values(by=["Order"])` with its default `na_position="last"`:
    rows with a non-null `Order` sorted ascending, followed by the rows whose
    `Order` is null in their original relative order (pandas `nargsort` masks
    null entries and appends their indices in order); the non-null `Order`
    values produced by this program are pairwise distinct, so the tie-breaking
    policy of the sort kind is immaterial;
  * concurrency: each batch of `NUM_OF_CONCURRENT_SESSIONS` page requests is
    issued together and may complete in an arbitrary order, modelled by a
    permutation per batch; `asyncio.gather` reassembles the results by launch
    index, modelled by `placeResults` writing each completion into the slot of
    its launch index;
  * a page fetch as a function from the page number to `Except String (List
    Asset)`: `Except.error` is a raised exception, which `gather` propagates;
  * the unbounded `itertools.count` loop with explicit fuel: `none` means the
    fuel bound was hit before the loop's own termination condition fired.
-/

/-- One asset record as returned by the Messari API, restricted to the fields
the program reads (`id`, `symbol`, `name`, `slug`,
`metrics/market_data/price_usd`, `metrics/marketcap/rank`). -/
structure Asset where
  id : String
  symbol : String
  name : String
  slug : String
  price_usd : Option Int
  rank : Option Int
deriving DecidableEq

/-- One row of the cryptocurrencies table: the CSV columns other than the `ID`
index column. -/
structure Row where
  symbol : String
  name : String
  slug : String
  price_usd : Option Int
  rank : Option Int
deriving DecidableEq

/-- A row extended with the transient `Order` column that
`upsert_cryptocurrencies` fills and `sort_cryptocurrencies` drops; `none`
models a missing (NaN) entry. -/
structure ORow where
  row : Row
  order : Option Nat
deriving DecidableEq

/-- A persisted table: rows (keyed by the `ID` index) in row order. -/
abbrev Df := List (String × Row)

/-- A merged table that still carries the transient `Order` column. -/
abbrev ODf := List (String × ORow)

/-- `NUM_OF_CONCURRENT_SESSIONS = 7` from `app.py`. -/
abbrev NUM_OF_CONCURRENT_SESSIONS : Nat := 7

/-- The page size configured in `MESSARI_ASSETS_API_GET_ALL_V2` (`limit=500`). -/
abbrev MESSARI_PAGE_SIZE : Nat := 500

/-- Python-dict insertion: replace the value at an existing key in place,
append a new key at the end. -/
def dictUpdate {α : Type} : List (String × α) → String → α → List (String × α)
  | [], k, v => [(k, v)]
  | (k', v') :: rest, k, v =>
    if k' = k then (k, v) :: rest else (k', v') :: dictUpdate rest k v

/-- Python-dict lookup on the association-list model. -/
def dlookup {α : Type} (k : String) : List (String × α) → Option α
  | [] => none
  | (k', v) :: rest => if k' = k then some v else dlookup k rest

/-- The row built from one fetched asset: the field values written by
`update_crypto_dict_with_messari_asset`. -/
def rowOfAsset (a : Asset) : Row :=
  ⟨a.symbol, a.name, a.slug, a.price_usd, a.rank⟩

/-- `update_crypto_dict_with_messari_asset`: write every column of the row at
index `asset.id`, including the transient `Order` column. -/
def update_crypto_dict_with_messari_asset (crypto_dict : ODf) (order : Nat)
    (asset : Asset) : ODf :=
  dictUpdate crypto_dict asset.id ⟨rowOfAsset asset, some order⟩

/-- The `for order, asset in enumerate(updated_assets)` loop of
`upsert_cryptocurrencies`, with the running enumeration index made explicit. -/
def upsertFrom (crypto_dict : ODf) (order : Nat) : List Asset → ODf
  | [] => crypto_dict
  | a :: rest =>
    upsertFrom (update_crypto_dict_with_messari_asset crypto_dict order a)
      (order + 1) rest

/-- `upsert_cryptocurrencies`: convert the table to a dict, reset the `Order`
column to empty (so every prior row starts with a null `Order`), then write
every fetched asset at its id with its enumeration index as `Order`. -/
def upsert_cryptocurrencies (crypto_df : Df) (updated_assets : List Asset) : ODf :=
  upsertFrom (crypto_df.map (fun e => (e.1, ⟨e.2, none⟩))) 0 updated_assets

/-- Comparison on `Order` values as pandas sorts them ascending with
`na_position="last"`: any number before null, null tied with null. -/
def oleB : Option Nat → Option Nat → Bool
  | some a, some b => a ≤ b
  | some _, none => true
  | none, some _ => false
  | none, none => true

/-- Stable insertion into a list sorted by `oleB` on the `Order` column. -/
def insertByOrder (x : String × ORow) : ODf → ODf
  | [] => [x]
  | y :: ys =>
    if oleB x.2.order y.2.order then x :: y :: ys else y :: insertByOrder x ys

/-- Stable insertion sort by the `Order` column. -/
def sortByOrder : ODf → ODf
  | [] => []
  | x :: xs => insertByOrder x (sortByOrder xs)

/-- Whether a merged row has a non-null `Order` entry. -/
def isRanked (e : String × ORow) : Bool := e.2.order.isSome

/-- `sort_cryptocurrencies`: `sort_values(by=["Order"])` (ascending, nulls
last, null rows keeping their relative order) followed by
`drop(columns=["Order"])`. -/
def sort_cryptocurrencies (crypto_df : ODf) : Df :=
  ((sortByOrder (crypto_df.filter isRanked)) ++
      crypto_df.filter (fun e => !(isRanked e))).map (fun e => (e.1, e.2.row))

/-- The `status` object of a Messari response: an `error_code` key may be
absent; `error_message` is the message read when the code is fatal. -/
structure MessariStatus where
  error_code : Option Int
  error_message : String
deriving DecidableEq

/-- A decoded Messari JSON response: `status` plus the `data` array. -/
structure MessariResponse where
  status : MessariStatus
  data : List Asset
deriving DecidableEq

/-- `get_one_page_asset_data_from_messari` applied to a decoded response:
error code 404 means the page limit has been reached and yields an empty
list, any other error code raises with the response's error message,
otherwise the `data` array is returned. -/
def get_one_page_asset_data_from_messari (resp : MessariResponse) :
    Except String (List Asset) :=
  match resp.status.error_code with
  | some code =>
    if code = 404 then Except.ok [] else Except.error resp.status.error_message
  | none => Except.ok resp.data

/-- Write each completion event `(launch index, result)` into the slot of its
launch index: how `asyncio.gather` assembles results positionally no matter in
which order the requests complete. -/
def placeResults {n : Nat} {α : Type} :
    List (Fin n × α) → (Fin n → α) → Fin n → α
  | [], s => s
  | (j, v) :: rest, s => placeResults rest (fun k => if k = j then v else s k)

/-- One concurrent batch: launch the requests for pages
`i, i+1, …, i+6`, let them complete in the order given by the permutation
`σ` (completion `t` is the request with launch index `σ t`), and read the
slots back in launch order. -/
def gatherBatch {α : Type} (fetch : Nat → α) (dflt : α) (i : Nat)
    (σ : Equiv.Perm (Fin NUM_OF_CONCURRENT_SESSIONS)) : List α :=
  (List.finRange NUM_OF_CONCURRENT_SESSIONS).map
    (placeResults
      ((List.finRange NUM_OF_CONCURRENT_SESSIONS).map
        (fun t => (σ t, fetch (i + (σ t).val))))
      (fun _ => dflt))

/-- `asyncio.gather` error propagation: if any request of the batch raised, the
whole gather raises; otherwise all page results are returned in launch order. -/
def collectGather {ε α : Type} : List (Except ε α) → Except ε (List α)
  | [] => Except.ok []
  | Except.error e :: _ => Except.error e
  | Except.ok x :: rest => (collectGather rest).map (x :: ·)

/-- The `for i in itertools.count(start=1, step=step)` loop of
`get_assets_from_messari`: gather one batch, append every page's records to the
accumulator, stop if any page of the batch came back empty, otherwise move the
cursor forward by the batch width.  `fuel` bounds the number of iterations the
model unfolds; `none` means the bound was reached first. -/
def get_assets_loop (fetch : Nat → Except String (List Asset))
    (perms : Nat → Equiv.Perm (Fin NUM_OF_CONCURRENT_SESSIONS)) :
    Nat → Nat → Nat → List Asset → Option (Except String (List Asset))
  | 0, _, _, _ => none
  | fuel + 1, b, i, acc =>
    match collectGather (gatherBatch fetch (Except.ok []) i (perms b)) with
    | Except.error e => some (Except.error e)
    | Except.ok asset_data_gathered =>
      if asset_data_gathered.any (fun item => item.length == 0) then
        some (Except.ok (acc ++ asset_data_gathered.flatten))
      else
        get_assets_loop fetch perms fuel (b + 1)
          (i + NUM_OF_CONCURRENT_SESSIONS) (acc ++ asset_data_gathered.flatten)

/-- `get_assets_from_messari`: run the batched pagination loop from page 1 with
an empty accumulator.  `perms` gives the completion order of each batch's
concurrent requests. -/
def get_assets_from_messari (fetch : Nat → Except String (List Asset))
    (perms : Nat → Equiv.Perm (Fin NUM_OF_CONCURRENT_SESSIONS)) (fuel : Nat) :
    Option (Except String (List Asset)) :=
  get_assets_loop fetch perms fuel 0 1 []

/-- `read_cryptocurrencies_from_csv`: a missing file (`none`) yields the empty
table; otherwise the stored table is read back unchanged. -/
def read_cryptocurrencies_from_csv (store : Option Df) : Df :=
  store.getD []

/-- `save_cryptocurrencies_to_csv`: the saved file holds exactly the final
table, keyed by the `ID` index column. -/
def save_cryptocurrencies_to_csv (crypto_df : Df) : Option Df :=
  some crypto_df

/-- The `__main__` block: fetch all assets (an uncaught exception terminates
the process before the store is read or written), then read, upsert, sort and
save.  The result pairs the process outcome with the final state of the store
file. -/
def main_run (fetch : Nat → Except String (List Asset))
    (perms : Nat → Equiv.Perm (Fin NUM_OF_CONCURRENT_SESSIONS)) (fuel : Nat)
    (store : Option Df) : Option (Except String Unit × Option Df) :=
  match get_assets_from_messari fetch perms fuel with
  | none => none
  | some (Except.error e) => some (Except.error e, store)
  | some (Except.ok assets) =>
    some (Except.ok (),
      save_cryptocurrencies_to_csv
        (sort_cryptocurrencies
          (upsert_cryptocurrencies (read_cryptocurrencies_from_csv store)
            assets)))

/-- The last occurrence of id `k` in an asset list, together with its
enumeration index, the enumeration starting at `o`. -/
def lastWithIdx (k : String) : Nat → List Asset → Option (Nat × Asset)
  | _, [] => none
  | o, a :: rest =>
    match lastWithIdx k (o + 1) rest with
    | some r => some r
    | none => if a.id = k then some (o, a) else none

/-- The fetched assets with earlier duplicate ids dropped (each id keeps its
last occurrence), annotated with the enumeration index of that occurrence, the
enumeration starting at `o`. -/
def dedupLastIdx : Nat → List Asset → ODf
  | _, [] => []
  | o, a :: rest =>
    if rest.any (fun b => b.id == a.id) then dedupLastIdx (o + 1) rest
    else (a.id, ⟨rowOfAsset a, some o⟩) :: dedupLastIdx (o + 1) rest

example : dictUpdate [("a", 1), ("b", 2)] "b" 5 = [("a", 1), ("b", 5)] := by decide
example : dictUpdate [("a", 1)] "b" 5 = [("a", 1), ("b", 5)] := by decide
example : oleB (some 3) none = true := by decide

/-- Looking a key up after a dict write: the written key reads back the new
value, any other key is unaffected. -/
theorem dlookup_dictUpdate {α : Type} (d : List (String × α)) (k k' : String)
    (v : α) :
    dlookup k (dictUpdate d k' v) = if k' = k then some v else dlookup k d := by
  induction d with
  | nil =>
    by_cases h : k' = k <;> simp [dictUpdate, dlookup, h]
  | cons e rest ih =>
    obtain ⟨k1, v1⟩ := e
    by_cases h1 : k1 = k'
    · subst h1
      by_cases h2 : k1 = k <;> simp [dictUpdate, dlookup, h2]
    · by_cases h2 : k1 = k
      · subst h2
        have : ¬ k' = k1 := fun h => h1 h.symm
        simp [dictUpdate, dlookup, h1, this]
      · simp [dictUpdate, dlookup, h1, h2, ih]

/-- A dict write leaves the key sequence unchanged when the key already
exists, and appends the key otherwise. -/
theorem dictUpdate_keys {α : Type} (d : List (String × α)) (k : String)
    (v : α) :
    (dictUpdate d k v).map Prod.fst =
      if k ∈ d.map Prod.fst then d.map Prod.fst
      else d.map Prod.fst ++ [k] := by
  induction d with
  | nil => simp [dictUpdate]
  | cons e rest ih =>
    obtain ⟨k1, v1⟩ := e
    by_cases h1 : k1 = k
    · subst h1
      simp [dictUpdate]
    · have h1' : ¬ k = k1 := fun h => h1 h.symm
      by_cases h2 : k ∈ rest.map Prod.fst <;>
        simp [dictUpdate, h1, h1', h2, ih]

/-- A dict write preserves the uniqueness of keys. -/
theorem dictUpdate_nodup {α : Type} {d : List (String × α)}
    (h : (d.map Prod.fst).Nodup) (k : String) (v : α) :
    ((dictUpdate d k v).map Prod.fst).Nodup := by
  rw [dictUpdate_keys]
  by_cases hin : k ∈ d.map Prod.fst
  · simpa [hin] using h
  · simp [hin, List.nodup_append, h]

/-- The enumeration loop of the upsert preserves uniqueness of keys. -/
theorem upsertFrom_nodup : ∀ (F : List Asset) (d : ODf) (o : Nat),
    (d.map Prod.fst).Nodup → ((upsertFrom d o F).map Prod.fst).Nodup := by
  intro F
  induction F with
  | nil => intro d o h; exact h
  | cons a rest ih =>
    intro d o h
    exact ih _ _ (dictUpdate_nodup h _ _)

/-- A successful dict lookup exhibits a member of the association list. -/
theorem mem_of_dlookup {α : Type} : ∀ {d : List (String × α)} {k : String}
    {v : α}, dlookup k d = some v → (k, v) ∈ d := by
  intro d
  induction d with
  | nil => intro k v h; simp [dlookup] at h
  | cons e rest ih =>
    intro k v h
    obtain ⟨k1, v1⟩ := e
    by_cases h1 : k1 = k
    · subst h1
      simp [dlookup] at h
      simp [h]
    · simp [dlookup, h1] at h
      exact List.mem_cons_of_mem _ (ih h)

/-- With unique keys, membership determines the dict lookup. -/
theorem dlookup_of_mem_nodup {α : Type} : ∀ {d : List (String × α)}
    {k : String} {v : α}, (d.map Prod.fst).Nodup → (k, v) ∈ d →
    dlookup k d = some v := by
  intro d
  induction d with
  | nil => intro k v _ h; simp at h
  | cons e rest ih =>
    intro k v hnd h
    obtain ⟨k1, v1⟩ := e
    simp only [List.map_cons, List.nodup_cons] at hnd
    rcases List.mem_cons.mp h with h | h
    · obtain ⟨hk, hv⟩ := Prod.mk.injEq .. ▸ h
      simp [dlookup, hk.symm, hv]
    · have hk1 : k1 ≠ k := by
        intro he
        subst he
        exact hnd.1 (List.mem_map_of_mem Prod.fst h)
      simp [dlookup, hk1, ih hnd.2 h]

/-- If an id does not occur in the asset list, there is no last occurrence. -/
theorem lastWithIdx_eq_none {k : String} : ∀ {F : List Asset} (o : Nat),
    (∀ b ∈ F, b.id ≠ k) → lastWithIdx k o F = none := by
  intro F
  induction F with
  | nil => intro o _; rfl
  | cons a rest ih =>
    intro o h
    have hrest := ih (o + 1) (fun b hb => h b (List.mem_cons_of_mem _ hb))
    have ha : a.id ≠ k := h a (List.mem_cons_self a rest)
    simp [lastWithIdx, hrest, ha]

/-- If an id occurs in the asset list, it has a last occurrence. -/
theorem lastWithIdx_isSome {k : String} : ∀ {F : List Asset} (o : Nat),
    (∃ b ∈ F, b.id = k) → (lastWithIdx k o F).isSome := by
  intro F
  induction F with
  | nil => intro o h; simp at h
  | cons a rest ih =>
    intro o h
    cases hr : lastWithIdx k (o + 1) rest with
    | some r => simp [lastWithIdx, hr]
    | none =>
      obtain ⟨b, hb, hbk⟩ := h
      rcases List.mem_cons.mp hb with hba | hbr
      · subst hba
        simp [lastWithIdx, hr, hbk]
      · have := ih (o + 1) ⟨b, hbr, hbk⟩
        rw [hr] at this
        simp at this

/-- Splitting the search for the last occurrence across an append. -/
theorem lastWithIdx_append (k : String) : ∀ (xs ys : List Asset) (o : Nat),
    lastWithIdx k o (xs ++ ys) =
      match lastWithIdx k (o + xs.length) ys with
      | some r => some r
      | none => lastWithIdx k o xs := by
  intro xs
  induction xs with
  | nil =>
    intro ys o
    cases h : lastWithIdx k o ys <;> simp [lastWithIdx, h]
  | cons x xs ih =>
    intro ys o
    have hlen : o + (x :: xs).length = (o + 1) + xs.length := by
      simp [List.length_cons]; omega
    rw [hlen]
    simp only [List.cons_append, lastWithIdx]
    have h2 := ih ys (o + 1)
    cases h : lastWithIdx k (o + 1 + xs.length) ys <;>
      cases h' : lastWithIdx k (o + 1) xs <;>
      rw [h, h'] at h2 <;> simp [h2]

/-- Lookup in the deduplicated fetched table is exactly the last occurrence of
the id in the fetched list. -/
theorem dlookup_dedupLastIdx (k : String) : ∀ (F : List Asset) (o : Nat),
    dlookup k (dedupLastIdx o F) =
      (lastWithIdx k o F).map (fun r => (⟨rowOfAsset r.2, some r.1⟩ : ORow)) := by
  intro F
  induction F with
  | nil => intro o; rfl
  | cons a rest ih =>
    intro o
    by_cases hdup : rest.any (fun b => b.id == a.id)
    · by_cases hk : a.id = k
      · subst hk
        have hsome : (lastWithIdx a.id (o + 1) rest).isSome := by
          apply lastWithIdx_isSome
          simpa [List.any_eq_true] using hdup
        cases hr : lastWithIdx a.id (o + 1) rest with
        | none => rw [hr] at hsome; simp at hsome
        | some r =>
          have h2 := ih (o + 1)
          rw [hr] at h2
          simp [dedupLastIdx, hdup, lastWithIdx, hr, h2]
      · have h2 := ih (o + 1)
        cases hr : lastWithIdx k (o + 1) rest <;> rw [hr] at h2 <;>
          simp [dedupLastIdx, hdup, lastWithIdx, hr, h2, hk]
    · by_cases hk : a.id = k
      · subst hk
        have hnone : lastWithIdx a.id (o + 1) rest = none := by
          apply lastWithIdx_eq_none
          intro b hb
          simp [List.any_eq_true] at hdup
          exact fun h => (hdup b hb) h
        simp [dedupLastIdx, hdup, lastWithIdx, hnone, dlookup]
      · have h2 := ih (o + 1)
        cases hr : lastWithIdx k (o + 1) rest <;> rw [hr] at h2 <;>
          simp [dedupLastIdx, hdup, lastWithIdx, hr, h2, dlookup, hk]

/-- Every key of the deduplicated fetched table is a fetched id. -/
theorem dedupLastIdx_keys_sub : ∀ {F : List Asset} {o : Nat}
    {e : String × ORow}, e ∈ dedupLastIdx o F → e.1 ∈ F.map Asset.id := by
  intro F
  induction F with
  | nil => intro o e h; simp [dedupLastIdx] at h
  | cons a rest ih =>
    intro o e h
    by_cases hdup : rest.any (fun b => b.id == a.id)
    · simp only [dedupLastIdx, hdup, if_pos] at h
      exact List.mem_cons_of_mem _ (ih h)
    · simp only [dedupLastIdx, hdup] at h
      rcases List.mem_cons.mp h with h | h
      · subst h; simp
      · exact List.mem_cons_of_mem _ (ih h)

/-- The deduplicated fetched table has unique keys. -/
theorem dedupLastIdx_nodup : ∀ (F : List Asset) (o : Nat),
    ((dedupLastIdx o F).map Prod.fst).Nodup := by
  intro F
  induction F with
  | nil => intro o; simp [dedupLastIdx]
  | cons a rest ih =>
    intro o
    by_cases hdup : rest.any (fun b => b.id == a.id)
    · simpa [dedupLastIdx, hdup] using ih (o + 1)
    · simp only [dedupLastIdx, hdup, if_neg, Bool.not_eq_true, List.map_cons,
        List.nodup_cons]
      refine ⟨?_, ih (o + 1)⟩
      intro hmem
      rcases List.mem_map.mp hmem with ⟨e, he, hek⟩
      have : e.1 ∈ rest.map Asset.id := dedupLastIdx_keys_sub he
      rw [hek] at this
      rcases List.mem_map.mp this with ⟨b, hb, hbk⟩
      simp [List.any_eq_true] at hdup
      exact (hdup b hb) hbk

/-- Every order value in the deduplicated fetched table is at least the
starting enumeration index. -/
theorem dedupLastIdx_order_ge : ∀ {F : List Asset} {o : Nat}
    {e : String × ORow}, e ∈ dedupLastIdx o F →
    ∃ v, e.2.order = some v ∧ o ≤ v := by
  intro F
  induction F with
  | nil => intro o e h; simp [dedupLastIdx] at h
  | cons a rest ih =>
    intro o e h
    by_cases hdup : rest.any (fun b => b.id == a.id)
    · simp only [dedupLastIdx, hdup, if_pos] at h
      obtain ⟨v, hv, hge⟩ := ih h
      exact ⟨v, hv, by omega⟩
    · simp only [dedupLastIdx, hdup] at h
      rcases List.mem_cons.mp h with h | h
      · subst h; exact ⟨o, rfl, le_refl o⟩
      · obtain ⟨v, hv, hge⟩ := ih h
        exact ⟨v, hv, by omega⟩

/-- Strict ascending comparison of two merged rows by their order values. -/
def rankLt (x y : String × ORow) : Prop :=
  ∃ u v, x.2.order = some u ∧ y.2.order = some v ∧ u < v

instance : IsAntisymm (String × ORow) rankLt := by
  constructor
  intro a b h1 h2
  obtain ⟨u, v, hu, hv, huv⟩ := h1
  obtain ⟨u', v', hu', hv', huv'⟩ := h2
  rw [hu] at hv'
  rw [hv] at hu'
  cases hv'
  cases hu'
  omega

/-- The deduplicated fetched table is strictly ascending in its order
values. -/
theorem dedupLastIdx_pairwise : ∀ (F : List Asset) (o : Nat),
    List.Pairwise rankLt (dedupLastIdx o F) := by
  intro F
  induction F with
  | nil => intro o; simp [dedupLastIdx]
  | cons a rest ih =>
    intro o
    by_cases hdup : rest.any (fun b => b.id == a.id)
    · simpa [dedupLastIdx, hdup] using ih (o + 1)
    · simp only [dedupLastIdx, hdup, if_neg, Bool.not_eq_true]
      refine List.Pairwise.cons ?_ (ih (o + 1))
      intro e he
      obtain ⟨v, hv, hge⟩ := dedupLastIdx_order_ge he
      exact ⟨o, v, rfl, hv, by omega⟩

/-- Lookup after the whole enumeration loop: an id that occurs in the fetched
list reads back the row and enumeration index of its last occurrence; any
other key is untouched. -/
theorem dlookup_upsertFrom (k : String) : ∀ (F : List Asset) (d : ODf)
    (o : Nat),
    dlookup k (upsertFrom d o F) =
      match lastWithIdx k o F with
      | some r => some ⟨rowOfAsset r.2, some r.1⟩
      | none => dlookup k d := by
  intro F
  induction F with
  | nil => intro d o; rfl
  | cons a rest ih =>
    intro d o
    rw [upsertFrom, ih, lastWithIdx]
    cases hr : lastWithIdx k (o + 1) rest with
    | some r => simp [hr]
    | none =>
      by_cases hk : a.id = k <;>
        simp [hr, hk, update_crypto_dict_with_messari_asset,
          dlookup_dictUpdate]

/-- `oleB` is total. -/
theorem oleB_total (x y : Option Nat) : oleB x y = true ∨ oleB y x = true := by
  cases x <;> cases y <;> simp [oleB] <;> omega

/-- `oleB` is transitive. -/
theorem oleB_trans {x y z : Option Nat} (h1 : oleB x y = true)
    (h2 : oleB y z = true) : oleB x z = true := by
  cases x <;> cases y <;> cases z <;> simp [oleB] at * <;> omega

/-- Ascending comparison of two merged rows by their order values. -/
def entLe (x y : String × ORow) : Prop := oleB x.2.order y.2.order = true

/-- Inserting into the sorted table yields the element-cons permutation. -/
theorem insertByOrder_perm (x : String × ORow) : ∀ (l : ODf),
    (insertByOrder x l).Perm (x :: l) := by
  intro l
  induction l with
  | nil => simp [insertByOrder]
  | cons y ys ih =>
    by_cases h : oleB x.2.order y.2.order
    · rw [insertByOrder, if_pos h]
    · rw [insertByOrder, if_neg h]
      exact (List.Perm.cons y ih).trans (List.Perm.swap x y ys)

/-- The insertion sort output is a permutation of its input. -/
theorem sortByOrder_perm : ∀ (l : ODf), (sortByOrder l).Perm l := by
  intro l
  induction l with
  | nil => simp [sortByOrder]
  | cons x xs ih =>
    exact (insertByOrder_perm x (sortByOrder xs)).trans (List.Perm.cons x ih)

/-- Inserting into a table sorted by `oleB` keeps it sorted. -/
theorem insertByOrder_pairwise (x : String × ORow) : ∀ {l : ODf},
    List.Pairwise entLe l → List.Pairwise entLe (insertByOrder x l) := by
  intro l
  induction l with
  | nil => intro _; simp [insertByOrder, List.pairwise_singleton]
  | cons y ys ih =>
    intro hp
    rcases List.pairwise_cons.mp hp with ⟨hy, hys⟩
    by_cases h : oleB x.2.order y.2.order
    · simp only [insertByOrder, h, if_pos]
      refine List.Pairwise.cons ?_ hp
      intro z hz
      rcases List.mem_cons.mp hz with hz | hz
      · subst hz; exact h
      · exact oleB_trans h (hy z hz)
    · simp only [insertByOrder, h, if_neg, Bool.not_eq_true]
      refine List.Pairwise.cons ?_ (ih hys)
      intro z hz
      have hz' := (insertByOrder_perm x ys).mem_iff.mp hz
      rcases List.mem_cons.mp hz' with hz' | hz'
      · rw [hz']
        rcases oleB_total x.2.order y.2.order with h' | h'
        · exact absurd h' h
        · exact h'
      · exact hy z hz'

/-- The insertion sort output is sorted by `oleB` on the order values. -/
theorem sortByOrder_pairwise : ∀ (l : ODf),
    List.Pairwise entLe (sortByOrder l) := by
  intro l
  induction l with
  | nil => simp [sortByOrder]
  | cons x xs ih => exact insertByOrder_pairwise x ih

/-- A slot never written by any completion event keeps its initial value. -/
theorem placeResults_not_mem {n : Nat} {α : Type} :
    ∀ (events : List (Fin n × α)) (s : Fin n → α) (j : Fin n),
    j ∉ events.map Prod.fst → placeResults events s j = s j := by
  intro events
  induction events with
  | nil => intro s j _; rfl
  | cons e rest ih =>
    intro s j hj
    obtain ⟨k, v⟩ := e
    simp only [List.map_cons, List.mem_cons, not_or] at hj
    rw [placeResults, ih _ _ hj.2]
    simp [hj.1]

/-- If every completion event carries the value `g` of its launch index, a slot
that is written ends up holding `g` of that slot, no matter in which order the
events arrive. -/
theorem placeResults_eval {n : Nat} {α : Type} (g : Fin n → α) :
    ∀ (events : List (Fin n × α)) (s : Fin n → α) (j : Fin n),
    (∀ e ∈ events, e.2 = g e.1) → j ∈ events.map Prod.fst →
    placeResults events s j = g j := by
  intro events
  induction events with
  | nil => intro s j _ hj; simp at hj
  | cons e rest ih =>
    intro s j hg hj
    obtain ⟨k, v⟩ := e
    by_cases hjr : j ∈ rest.map Prod.fst
    · rw [placeResults]
      exact ih _ _ (fun e he => hg e (List.mem_cons_of_mem _ he)) hjr
    · have hjk : j = k := by
        simp only [List.map_cons, List.mem_cons] at hj
        rcases hj with hj | hj
        · exact hj
        · exact absurd hj hjr
      have hv : v = g k := by
        have := hg (k, v) (List.mem_cons_self _ _)
        simpa using this
      rw [placeResults, placeResults_not_mem _ _ _ hjr]
      simp [hjk, hv]

/-- Reading the pages of one batch window in launch-index order. -/
theorem finRange_fetch_eq {α : Type} (fetch : Nat → α) (i n : Nat) :
    (List.finRange n).map (fun j => fetch (i + j.val)) =
      (List.range' i n).map fetch := by
  apply List.ext_getElem
  · simp
  · intro idx h1 h2
    simp [List.getElem_finRange, List.getElem_range']

/-- The result of a concurrent batch is the page results in launch order,
independently of the completion order `σ`. -/
theorem gatherBatch_eq {α : Type} (fetch : Nat → α) (dflt : α) (i : Nat)
    (σ : Equiv.Perm (Fin NUM_OF_CONCURRENT_SESSIONS)) :
    gatherBatch fetch dflt i σ = (List.range' i 7).map fetch := by
  have h1 : gatherBatch fetch dflt i σ =
      (List.finRange 7).map (fun j => fetch (i + j.val)) := by
    unfold gatherBatch
    apply List.map_congr_left
    intro j _
    apply placeResults_eval (fun j => fetch (i + j.val))
    · intro e he
      rcases List.mem_map.mp he with ⟨t, _, rfl⟩
      rfl
    · rw [List.map_map]
      refine List.mem_map.mpr ⟨σ⁻¹ j, List.mem_finRange _, ?_⟩
      simp
  rw [h1, finRange_fetch_eq]

/-- Gathering a batch in which no request raised returns all page results. -/
theorem collectGather_map_ok {ε α : Type} : ∀ (l : List α),
    collectGather (l.map (Except.ok : α → Except ε α)) = Except.ok l := by
  intro l
  induction l with
  | nil => rfl
  | cons x rest ih => simp [collectGather, ih, Except.map]

/-- Gathering a batch in which some request raised raises. -/
theorem collectGather_error {ε α : Type} : ∀ {l : List (Except ε α)},
    (∃ x ∈ l, ∃ e, x = Except.error e) →
    ∃ e, collectGather l = Except.error e := by
  intro l
  induction l with
  | nil => intro h; simp at h
  | cons x rest ih =>
    intro h
    cases x with
    | error e => exact ⟨e, rfl⟩
    | ok v =>
      obtain ⟨y, hy, e, he⟩ := h
      rcases List.mem_cons.mp hy with hy | hy
      · rw [hy] at he; simp at he
      · obtain ⟨e', he'⟩ := ih ⟨y, hy, e, he⟩
        exact ⟨e', by simp [collectGather, he', Except.map]⟩

/-- The pagination loop on an error-free page function: if pages from `M` on
are empty and pages before `M` (from the cursor on) are non-empty, the loop
returns the concatenation of the pages from the cursor up to `M`, for any
sufficient fuel, any batch counter and any completion orders. -/
theorem get_assets_loop_pure (f : Nat → List Asset)
    (perms : Nat → Equiv.Perm (Fin NUM_OF_CONCURRENT_SESSIONS)) (M : Nat)
    (hM : ∀ p, M ≤ p → f p = []) :
    ∀ (fuel i b : Nat) (acc : List Asset),
    (∀ p, i ≤ p → p < M → f p ≠ []) → i ≤ M → M < i + 7 * fuel →
    get_assets_loop (fun p => Except.ok (f p)) perms fuel b i acc =
      some (Except.ok (acc ++ ((List.range' i (M - i)).map f).flatten)) := by
  intro fuel
  induction fuel with
  | zero => intro i b acc _ hiM hlt; omega
  | succ fuel ih =>
    intro i b acc hne hiM hlt
    have hbatch : collectGather
        (gatherBatch (fun p => (Except.ok (f p) : Except String (List Asset)))
          (Except.ok []) i (perms b)) =
        Except.ok ((List.range' i 7).map f) := by
      rw [gatherBatch_eq, show (List.range' i 7).map
          (fun p => (Except.ok (f p) : Except String (List Asset)))
        = ((List.range' i 7).map f).map Except.ok from by
          rw [List.map_map]; rfl]
      exact collectGather_map_ok _
    by_cases hcase : M < i + 7
    · have hMmem : M ∈ List.range' i 7 := by
        rw [List.mem_range']
        exact ⟨M - i, by omega, by omega⟩
      have hany : ((List.range' i 7).map f).any
          (fun item => item.length == 0) = true := by
        rw [List.any_eq_true]
        exact ⟨f M, List.mem_map_of_mem f hMmem, by simp [hM M (le_refl M)]⟩
      have hsplit : List.range' i 7 =
          List.range' i (M - i) ++ List.range' (i + (M - i)) (7 - (M - i)) := by
        rw [List.range'_append_1]
        congr 1
        omega
      have hednil : ((List.range' (i + (M - i)) (7 - (M - i))).map f).flatten
          = [] := by
        rw [List.flatten_eq_nil_iff]
        intro l hl
        rcases List.mem_map.mp hl with ⟨p, hp, rfl⟩
        rw [List.mem_range'] at hp
        obtain ⟨t, ht, rfl⟩ := hp
        exact hM _ (by omega)
      simp only [get_assets_loop, hbatch, hany, if_true]
      rw [hsplit, List.map_append, List.flatten_append, hednil,
        List.append_nil]
    · have hany : ((List.range' i 7).map f).any
          (fun item => item.length == 0) = false := by
        rw [List.any_eq_false]
        intro x hx
        rcases List.mem_map.mp hx with ⟨p, hp, rfl⟩
        rw [List.mem_range'] at hp
        obtain ⟨t, ht, rfl⟩ := hp
        simp only [beq_iff_eq, List.length_eq_zero]
        exact hne _ (by omega) (by omega)
      have hrec := ih (i + 7) (b + 1)
        (acc ++ ((List.range' i 7).map f).flatten)
        (fun p h1 h2 => hne p (by omega) h2) (by omega) (by omega)
      simp only [get_assets_loop, hbatch, hany, Bool.false_eq_true, if_false]
      rw [show i + NUM_OF_CONCURRENT_SESSIONS = i + 7 from rfl, hrec]
      have hsplit : List.range' i (M - i) =
          List.range' i 7 ++ List.range' (i + 7) (M - (i + 7)) := by
        rw [List.range'_append_1]
        congr 1
        omega
      rw [hsplit, List.map_append, List.flatten_append, List.append_assoc]

/-- The pagination loop stops exactly with the first batch that contains an
empty page: if every page of the first `K` batch windows ahead of the cursor
is non-empty and the `(K+1)`-st window contains an empty page, the loop
returns the concatenation of all pages of exactly those `K+1` windows, for any
fuel larger than `K`. -/
theorem get_assets_loop_first_empty (f : Nat → List Asset)
    (perms : Nat → Equiv.Perm (Fin NUM_OF_CONCURRENT_SESSIONS)) :
    ∀ (K fuel i b : Nat) (acc : List Asset),
    (∀ k, k < K → ∀ p, i + 7 * k ≤ p → p < i + 7 * (k + 1) → f p ≠ []) →
    (∃ p, i + 7 * K ≤ p ∧ p < i + 7 * (K + 1) ∧ f p = []) →
    K < fuel →
    get_assets_loop (fun p => Except.ok (f p)) perms fuel b i acc =
      some (Except.ok (acc ++ ((List.range' i (7 * (K + 1))).map f).flatten)) := by
  intro K
  induction K with
  | zero =>
    intro fuel i b acc _ hempty hfuel
    cases fuel with
    | zero => omega
    | succ fuel =>
      have hbatch : collectGather
          (gatherBatch
            (fun p => (Except.ok (f p) : Except String (List Asset)))
            (Except.ok []) i (perms b)) =
          Except.ok ((List.range' i 7).map f) := by
        rw [gatherBatch_eq, show (List.range' i 7).map
            (fun p => (Except.ok (f p) : Except String (List Asset)))
          = ((List.range' i 7).map f).map Except.ok from by
            rw [List.map_map]; rfl]
        exact collectGather_map_ok _
      obtain ⟨p, hp1, hp2, hp3⟩ := hempty
      have hpmem : p ∈ List.range' i 7 := by
        rw [List.mem_range']
        exact ⟨p - i, by omega, by omega⟩
      have hany : ((List.range' i 7).map f).any
          (fun item => item.length == 0) = true := by
        rw [List.any_eq_true]
        exact ⟨f p, List.mem_map_of_mem f hpmem, by simp [hp3]⟩
      simp only [get_assets_loop, hbatch, hany, if_true]
  | succ K ih =>
    intro fuel i b acc hfirst hempty hfuel
    cases fuel with
    | zero => omega
    | succ fuel =>
      have hbatch : collectGather
          (gatherBatch
            (fun p => (Except.ok (f p) : Except String (List Asset)))
            (Except.ok []) i (perms b)) =
          Except.ok ((List.range' i 7).map f) := by
        rw [gatherBatch_eq, show (List.range' i 7).map
            (fun p => (Except.ok (f p) : Except String (List Asset)))
          = ((List.range' i 7).map f).map Except.ok from by
            rw [List.map_map]; rfl]
        exact collectGather_map_ok _
      have hany : ((List.range' i 7).map f).any
          (fun item => item.length == 0) = false := by
        rw [List.any_eq_false]
        intro x hx
        rcases List.mem_map.mp hx with ⟨p, hp, rfl⟩
        rw [List.mem_range'] at hp
        obtain ⟨t, ht, rfl⟩ := hp
        simp only [beq_iff_eq, List.length_eq_zero]
        exact hfirst 0 (by omega) _ (by omega) (by omega)
      have hrec := ih fuel (i + 7) (b + 1)
        (acc ++ ((List.range' i 7).map f).flatten)
        (fun k hk p h1 h2 => hfirst (k + 1) (by omega) p (by omega) (by omega))
        (by obtain ⟨p, h1, h2, h3⟩ := hempty; exact ⟨p, by omega, by omega, h3⟩)
        (by omega)
      simp only [get_assets_loop, hbatch, hany, Bool.false_eq_true, if_false]
      rw [show i + NUM_OF_CONCURRENT_SESSIONS = i + 7 from rfl, hrec,
        show 7 * (K + 1 + 1) = 7 * (K + 1) + 7 from by omega,
        ← List.range'_append_1 i 7 (7 * (K + 1)), List.map_append,
        List.flatten_append, List.append_assoc]

/-- If every page of the first `K` batch windows succeeds with a non-empty
result and some request of the `(K+1)`-st window raises, the pagination loop
raises. -/
theorem get_assets_loop_error (f : Nat → Except String (List Asset))
    (g : Nat → List Asset)
    (perms : Nat → Equiv.Perm (Fin NUM_OF_CONCURRENT_SESSIONS)) :
    ∀ (K fuel i b : Nat) (acc : List Asset),
    (∀ k, k < K → ∀ p, i + 7 * k ≤ p → p < i + 7 * (k + 1) →
      f p = Except.ok (g p) ∧ g p ≠ []) →
    (∃ p, i + 7 * K ≤ p ∧ p < i + 7 * (K + 1) ∧ ∃ msg, f p = Except.error msg) →
    K < fuel →
    ∃ e, get_assets_loop f perms fuel b i acc = some (Except.error e) := by
  intro K
  induction K with
  | zero =>
    intro fuel i b acc _ hempty hfuel
    cases fuel with
    | zero => omega
    | succ fuel =>
      obtain ⟨p, hp1, hp2, msg, hp3⟩ := hempty
      have hpmem : p ∈ List.range' i 7 := by
        rw [List.mem_range']
        exact ⟨p - i, by omega, by omega⟩
      obtain ⟨e, hce⟩ := collectGather_error
        ⟨f p, List.mem_map_of_mem f hpmem, msg, hp3⟩
      exact ⟨e, by simp only [get_assets_loop, gatherBatch_eq, hce]⟩
  | succ K ih =>
    intro fuel i b acc hfirst hempty hfuel
    cases fuel with
    | zero => omega
    | succ fuel =>
      have hmap : (List.range' i 7).map f = ((List.range' i 7).map g).map
          Except.ok := by
        rw [List.map_map]
        apply List.map_congr_left
        intro p hp
        rw [List.mem_range'] at hp
        obtain ⟨t, ht, rfl⟩ := hp
        exact (hfirst 0 (by omega) _ (by omega) (by omega)).1
      have hbatch : collectGather
          (gatherBatch f (Except.ok []) i (perms b)) =
          Except.ok ((List.range' i 7).map g) := by
        rw [gatherBatch_eq, hmap]
        exact collectGather_map_ok _
      have hany : ((List.range' i 7).map g).any
          (fun item => item.length == 0) = false := by
        rw [List.any_eq_false]
        intro x hx
        rcases List.mem_map.mp hx with ⟨p, hp, rfl⟩
        rw [List.mem_range'] at hp
        obtain ⟨t, ht, rfl⟩ := hp
        simp only [beq_iff_eq, List.length_eq_zero]
        exact (hfirst 0 (by omega) _ (by omega) (by omega)).2
      obtain ⟨e, he⟩ := ih fuel (i + 7) (b + 1)
        (acc ++ ((List.range' i 7).map g).flatten)
        (fun k hk p h1 h2 => hfirst (k + 1) (by omega) p (by omega) (by omega))
        (by obtain ⟨p, h1, h2, h3⟩ := hempty; exact ⟨p, by omega, by omega, h3⟩)
        (by omega)
      refine ⟨e, ?_⟩
      simp only [get_assets_loop, hbatch, hany, Bool.false_eq_true, if_false]
      rw [show i + NUM_OF_CONCURRENT_SESSIONS = i + 7 from rfl]
      exact he

/-- A key known to be absent makes the extra key-exclusion filter redundant. -/
theorem filter_and_ne_of_not_mem {α : Type} (q : String × α → Bool)
    (k : String) : ∀ {d : List (String × α)}, k ∉ d.map Prod.fst →
    d.filter (fun e => q e && !(k == e.1)) = d.filter q := by
  intro d
  induction d with
  | nil => intro _; rfl
  | cons e rest ih =>
    intro hk
    simp only [List.map_cons, List.mem_cons, not_or] at hk
    have h1 : (k == e.1) = false := beq_eq_false_iff_ne.mpr hk.1
    cases hq : q e <;> simp [List.filter_cons, h1, hq, ih hk.2]

/-- Filtering after a dict write whose value fails the predicate: the written
key's row disappears, every other row filters as before. -/
theorem filter_dictUpdate {α : Type} (q : String × α → Bool) (k : String)
    (v : α) : ∀ {d : List (String × α)}, (d.map Prod.fst).Nodup →
    q (k, v) = false →
    (dictUpdate d k v).filter q = d.filter (fun e => q e && !(k == e.1)) := by
  intro d
  induction d with
  | nil => intro _ hq; simp [dictUpdate, List.filter_cons, hq]
  | cons e rest ih =>
    intro hnd hq
    obtain ⟨k1, v1⟩ := e
    simp only [List.map_cons, List.nodup_cons] at hnd
    by_cases h1 : k1 = k
    · subst h1
      rw [dictUpdate, if_pos rfl, List.filter_cons, List.filter_cons, hq,
        show (q (k1, v1) && !(k1 == k1)) = false from by simp]
      simp only [Bool.false_eq_true, if_false]
      exact (filter_and_ne_of_not_mem q k1 hnd.1).symm
    · have h2 : (k == k1) = false :=
        beq_eq_false_iff_ne.mpr (fun h => h1 h.symm)
      cases hq1 : q (k1, v1) <;>
        simp [dictUpdate, h1, List.filter_cons, hq1, h2, ih hnd.2 hq]

/-- The rows of the merged table that end up with a null `Order` are exactly
the rows of the starting dict whose key is not a fetched id, in their original
order (the enumeration loop never writes a null `Order`). -/
theorem upsertFrom_filter_unranked : ∀ (F : List Asset) (d : ODf) (o : Nat),
    (d.map Prod.fst).Nodup →
    (upsertFrom d o F).filter (fun e => !(isRanked e)) =
      d.filter (fun e => !(isRanked e) && !(F.any (fun a => a.id == e.1))) := by
  intro F
  induction F with
  | nil =>
    intro d o _
    rw [upsertFrom]
    apply Eq.symm
    apply List.filter_congr
    intro e _
    simp
  | cons a rest ih =>
    intro d o hnd
    rw [upsertFrom, show update_crypto_dict_with_messari_asset d o a =
      dictUpdate d a.id ⟨rowOfAsset a, some o⟩ from rfl,
      ih _ _ (dictUpdate_nodup hnd _ _),
      filter_dictUpdate _ _ _ hnd (by simp [isRanked])]
    apply List.filter_congr
    intro e _
    cases h1 : isRanked e <;> cases h2 : (a.id == e.1) <;>
      cases h3 : rest.any (fun b => b.id == e.1) <;>
      simp [List.any_cons, h1, h2, h3]

/-- Looking up a key in a value-mapped table maps the lookup. -/
theorem dlookup_map_value {α β : Type} (g : α → β) (k : String) :
    ∀ (d : List (String × α)),
    dlookup k (d.map (fun e => (e.1, g e.2))) = (dlookup k d).map g := by
  intro d
  induction d with
  | nil => rfl
  | cons e rest ih =>
    by_cases h : e.1 = k <;> simp [dlookup, h, ih]

/-- The ranked rows of the merged table are exactly the last occurrences of
the fetched ids with their enumeration indices. -/
theorem mem_filter_ranked_upsert {P : Df} {F : List Asset}
    (hnd : (P.map Prod.fst).Nodup) {e : String × ORow} :
    e ∈ (upsert_cryptocurrencies P F).filter isRanked ↔
      ∃ j a, lastWithIdx e.1 0 F = some (j, a) ∧
        e.2 = (⟨rowOfAsset a, some j⟩ : ORow) := by
  have hnd' : ((upsert_cryptocurrencies P F).map Prod.fst).Nodup := by
    apply upsertFrom_nodup
    rw [show (P.map (fun e => ((e.1, ⟨e.2, none⟩) : String × ORow))).map
      Prod.fst = P.map Prod.fst from by rw [List.map_map]; rfl]
    exact hnd
  constructor
  · intro h
    rcases List.mem_filter.mp h with ⟨hmem, hrk⟩
    have hl : dlookup e.1 (upsert_cryptocurrencies P F) = some e.2 :=
      dlookup_of_mem_nodup hnd' (by simpa using hmem)
    rw [upsert_cryptocurrencies, dlookup_upsertFrom] at hl
    cases hlast : lastWithIdx e.1 0 F with
    | some r =>
      simp only [hlast] at hl
      refine ⟨r.1, r.2, rfl, ?_⟩
      simpa using hl.symm
    | none =>
      simp only [hlast] at hl
      rw [dlookup_map_value (fun r => (⟨r, none⟩ : ORow)) e.1 P] at hl
      cases hpl : dlookup e.1 P with
      | none => rw [hpl] at hl; simp at hl
      | some r =>
        rw [hpl] at hl
        have : e.2 = ⟨r, none⟩ := by simpa using hl.symm
        rw [isRanked, this] at hrk
        simp at hrk
  · rintro ⟨j, a, hlast, hval⟩
    have hl : dlookup e.1 (upsert_cryptocurrencies P F) = some e.2 := by
      rw [upsert_cryptocurrencies, dlookup_upsertFrom, hlast, hval]
    have hmem := mem_of_dlookup hl
    refine List.mem_filter.mpr ⟨by simpa using hmem, ?_⟩
    rw [isRanked, hval]
    rfl

/-- Membership in the deduplicated fetched table is exactly being the last
occurrence of one's id. -/
theorem mem_dedupLastIdx {F : List Asset} {o : Nat} {e : String × ORow} :
    e ∈ dedupLastIdx o F ↔
      ∃ j a, lastWithIdx e.1 o F = some (j, a) ∧
        e.2 = (⟨rowOfAsset a, some j⟩ : ORow) := by
  constructor
  · intro h
    have hl : dlookup e.1 (dedupLastIdx o F) = some e.2 := by
      apply dlookup_of_mem_nodup (dedupLastIdx_nodup F o)
      simpa using h
    rw [dlookup_dedupLastIdx] at hl
    cases hlast : lastWithIdx e.1 o F with
    | none => rw [hlast] at hl; simp at hl
    | some r =>
      rw [hlast] at hl
      refine ⟨r.1, r.2, rfl, ?_⟩
      simpa using hl.symm
  · rintro ⟨j, a, hlast, hval⟩
    have hl : dlookup e.1 (dedupLastIdx o F) = some e.2 := by
      rw [dlookup_dedupLastIdx, hlast, hval]
      rfl
    have := mem_of_dlookup hl
    simpa using this

/-- The ranked part of the merged table is a permutation of the deduplicated
fetched table. -/
theorem ranked_upsert_perm (P : Df) (F : List Asset)
    (hnd : (P.map Prod.fst).Nodup) :
    ((upsert_cryptocurrencies P F).filter isRanked).Perm
      (dedupLastIdx 0 F) := by
  have hnodupU : ((upsert_cryptocurrencies P F).map Prod.fst).Nodup := by
    apply upsertFrom_nodup
    rw [show (P.map (fun e => ((e.1, ⟨e.2, none⟩) : String × ORow))).map
      Prod.fst = P.map Prod.fst from by rw [List.map_map]; rfl]
    exact hnd
  have hnd1 : ((upsert_cryptocurrencies P F).filter isRanked).Nodup := by
    apply List.Nodup.of_map Prod.fst
    exact (hnodupU.sublist (List.Sublist.map Prod.fst
      (List.filter_sublist _)))
  have hnd2 : (dedupLastIdx 0 F).Nodup :=
    List.Nodup.of_map Prod.fst (dedupLastIdx_nodup F 0)
  rw [List.perm_ext_iff_of_nodup hnd1 hnd2]
  intro e
  rw [mem_filter_ranked_upsert hnd, mem_dedupLastIdx]

/-- Sorting the ranked part of the merged table yields exactly the
deduplicated fetched table, in fetch order. -/
theorem sortByOrder_ranked_eq (P : Df) (F : List Asset)
    (hnd : (P.map Prod.fst).Nodup) :
    sortByOrder ((upsert_cryptocurrencies P F).filter isRanked) =
      dedupLastIdx 0 F := by
  have hperm : (sortByOrder ((upsert_cryptocurrencies P F).filter
      isRanked)).Perm (dedupLastIdx 0 F) :=
    (sortByOrder_perm _).trans (ranked_upsert_perm P F hnd)
  have h1 : List.Pairwise entLe
      (sortByOrder ((upsert_cryptocurrencies P F).filter isRanked)) :=
    sortByOrder_pairwise _
  have hdnodup : ((dedupLastIdx 0 F).map (fun e => e.2.order)).Nodup := by
    rw [List.Nodup, List.pairwise_map]
    apply (dedupLastIdx_pairwise F 0).imp
    intro a b h
    obtain ⟨u, v, hu, hv, huv⟩ := h
    rw [hu, hv]
    intro hc
    cases hc
    omega
  have hnodup2 : ((sortByOrder ((upsert_cryptocurrencies P F).filter
      isRanked)).map (fun e => e.2.order)).Nodup :=
    ((hperm.map _).nodup_iff).mpr hdnodup
  have hne : List.Pairwise
      (fun a b : String × ORow => a.2.order ≠ b.2.order)
      (sortByOrder ((upsert_cryptocurrencies P F).filter isRanked)) := by
    rw [List.Nodup, List.pairwise_map] at hnodup2
    exact hnodup2
  have hsome : ∀ e ∈ sortByOrder ((upsert_cryptocurrencies P F).filter
      isRanked), e.2.order.isSome = true := by
    intro e he
    have hm : e ∈ (upsert_cryptocurrencies P F).filter isRanked :=
      ((sortByOrder_perm _).mem_iff).mp he
    exact (List.mem_filter.mp hm).2
  have hsorted : List.Pairwise rankLt
      (sortByOrder ((upsert_cryptocurrencies P F).filter isRanked)) := by
    refine List.Pairwise.imp_of_mem ?_ (h1.and hne)
    intro a b ha hb hab
    obtain ⟨hle, hneq⟩ := hab
    obtain ⟨u, hu⟩ := Option.isSome_iff_exists.mp (hsome a ha)
    obtain ⟨v, hv⟩ := Option.isSome_iff_exists.mp (hsome b hb)
    refine ⟨u, v, hu, hv, ?_⟩
    rw [entLe, hu, hv] at hle
    rw [hu, hv] at hneq
    simp only [oleB, decide_eq_true_eq] at hle
    have : u ≠ v := fun h => hneq (by rw [h])
    omega
  exact List.eq_of_perm_of_sorted hperm hsorted (dedupLastIdx_pairwise F 0)

/-- Filtering the null-`Order`-annotated prior rows by a key predicate
commutes with the annotation. -/
theorem withNone_filter (P : Df) (F : List Asset) :
    (P.map (fun e => ((e.1, ⟨e.2, none⟩) : String × ORow))).filter
      (fun e => !(isRanked e) && !(F.any (fun a => a.id == e.1))) =
    (P.filter (fun e => !(F.any (fun a => a.id == e.1)))).map
      (fun e => ((e.1, ⟨e.2, none⟩) : String × ORow)) := by
  rw [List.filter_map]
  refine congrArg _ (List.filter_congr ?_)
  intro e _
  simp [isRanked, Function.comp]

/-- The persisted result of one run: the fetched assets (one row per id, last
occurrence winning, in fetch order) followed by the prior rows whose id was
not fetched, in their prior order. -/
theorem run_eq (P : Df) (F : List Asset) (hnd : (P.map Prod.fst).Nodup) :
    sort_cryptocurrencies (upsert_cryptocurrencies P F) =
      (dedupLastIdx 0 F).map (fun e => (e.1, e.2.row)) ++
        P.filter (fun e => !(F.any (fun a => a.id == e.1))) := by
  rw [sort_cryptocurrencies, sortByOrder_ranked_eq P F hnd]
  rw [show (upsert_cryptocurrencies P F).filter (fun e => !(isRanked e)) =
      (P.filter (fun e => !(F.any (fun a => a.id == e.1)))).map
        (fun e => ((e.1, ⟨e.2, none⟩) : String × ORow)) from by
    rw [upsert_cryptocurrencies, upsertFrom_filter_unranked F _ 0 (by
      rw [show (P.map (fun e => ((e.1, ⟨e.2, none⟩) : String × ORow))).map
        Prod.fst = P.map Prod.fst from by rw [List.map_map]; rfl]
      exact hnd), withNone_filter]]
  rw [List.map_append]
  congr 1
  rw [List.map_map]
  have hid : ∀ l : Df, l.map ((fun e : String × ORow => (e.1, e.2.row)) ∘
      (fun e : String × Row => ((e.1, ⟨e.2, none⟩) : String × ORow))) = l := by
    intro l
    induction l with
    | nil => rfl
    | cons x xs ih => simp [ih]
  exact hid _

/-- The keys of a run's persisted output are unique. -/
theorem run_keys_nodup (P : Df) (F : List Asset)
    (hnd : (P.map Prod.fst).Nodup) :
    ((sort_cryptocurrencies (upsert_cryptocurrencies P F)).map
      Prod.fst).Nodup := by
  rw [run_eq P F hnd, List.map_append, List.nodup_append]
  refine ⟨?_, ?_, ?_⟩
  · rw [List.map_map]
    exact dedupLastIdx_nodup F 0
  · exact hnd.sublist (List.Sublist.map _ (List.filter_sublist _))
  · intro x hx1 hx2
    rw [List.map_map] at hx1
    have hxF : x ∈ F.map Asset.id := by
      rcases List.mem_map.mp hx1 with ⟨e, he, hex⟩
      have := dedupLastIdx_keys_sub he
      rw [show (Prod.fst ∘ fun e : String × ORow => (e.1, e.2.row)) e = e.1
        from rfl] at hex
      rw [hex] at this
      exact this
    rcases List.mem_map.mp hx2 with ⟨e, he, hex⟩
    rcases List.mem_filter.mp he with ⟨_, hc⟩
    rcases List.mem_map.mp hxF with ⟨a, ha, hax⟩
    rw [Bool.not_eq_eq_eq_not, Bool.not_true, List.any_eq_false] at hc
    exact hc a ha (by rw [hax, hex]; exact beq_self_eq_true _)

/-- `Pairwise` from a relation that holds for every pair of members. -/
theorem pairwise_of_all {α : Type} {R : α → α → Prop} : ∀ {l : List α},
    (∀ a ∈ l, ∀ b ∈ l, R a b) → List.Pairwise R l := by
  intro l
  induction l with
  | nil => intro _; exact List.Pairwise.nil
  | cons x xs ih =>
    intro h
    refine List.Pairwise.cons ?_ (ih ?_)
    · intro b hb
      exact h x (List.mem_cons_self _ _) b (List.mem_cons_of_mem _ hb)
    · intro a ha b hb
      exact h a (List.mem_cons_of_mem _ ha) b (List.mem_cons_of_mem _ hb)

/-- A row that fails `isRanked` has a null `Order`. -/
theorem order_none_of_unranked {e : String × ORow}
    (h : (!(isRanked e)) = true) : e.2.order = none := by
  cases ho : e.2.order with
  | none => rfl
  | some v => rw [isRanked, ho] at h; simp at h

/-- Null `Order` values sort after everything. -/
theorem oleB_none (x : Option Nat) : oleB x none = true := by
  cases x <;> rfl

/-- Dict lookup over an append searches the first part first. -/
theorem dlookup_append {α : Type} (k : String) : ∀ (A B : List (String × α)),
    dlookup k (A ++ B) =
      match dlookup k A with
      | some v => some v
      | none => dlookup k B := by
  intro A
  induction A with
  | nil => intro B; rfl
  | cons e rest ih =>
    intro B
    by_cases h : e.1 = k
    · simp [dlookup, h]
    · simp only [List.cons_append]
      rw [show ((e.1, e.2) :: (rest ++ B)) = (e :: (rest ++ B)) from rfl]
      simp [dlookup, h, ih]

/-- An id whose filtered occurrence list is the singleton `[a]` has `a` as its
last occurrence. -/
theorem lastWithIdx_of_filter_singleton {F : List Asset} {k : String}
    {a : Asset} :
    F.filter (fun b => b.id == k) = [a] →
    ∀ o, ∃ j, lastWithIdx k o F = some (j, a) := by
  induction F with
  | nil => intro h; simp at h
  | cons b rest ih =>
    intro h o
    by_cases hb : b.id = k
    · rw [List.filter_cons, show (b.id == k) = true from by simp [hb],
        if_pos rfl] at h
      have h1 : b = a := (List.cons_eq_cons.mp h).1
      have h2 : rest.filter (fun b => b.id == k) = [] :=
        (List.cons_eq_cons.mp h).2
      have hnone : lastWithIdx k (o + 1) rest = none := by
        apply lastWithIdx_eq_none
        intro c hc hck
        have hcmem : c ∈ rest.filter (fun b => b.id == k) :=
          List.mem_filter.mpr ⟨hc, by simp [hck]⟩
        rw [h2] at hcmem
        simp at hcmem
      refine ⟨o, ?_⟩
      simp only [lastWithIdx, hnone]
      rw [if_pos hb, h1]
    · rw [List.filter_cons, show (b.id == k) = false from by simp [hb]] at h
      simp only [Bool.false_eq_true, if_false] at h
      obtain ⟨j, hj⟩ := ih h (o + 1)
      exact ⟨j, by simp only [lastWithIdx, hj]⟩

/-- Empty pages contribute nothing to the total record count. -/
theorem sum_length_filter_nonempty {α : Type} : ∀ (L : List (List α)),
    ((L.filter (fun pg => !(pg.isEmpty))).map List.length).sum =
      (L.map List.length).sum := by
  intro L
  induction L with
  | nil => rfl
  | cons x xs ih =>
    rw [List.filter_cons]
    cases x with
    | nil =>
      rw [show (!(([] : List α).isEmpty)) = false from rfl]
      simp only [Bool.false_eq_true, if_false]
      rw [ih]
      simp
    | cons y ys =>
      rw [show (!((y :: ys).isEmpty)) = true from rfl, if_pos rfl]
      simp only [List.map_cons, List.sum_cons, ih]

/-- Sample data used by the concrete witnesses. -/
def asset0 : Asset :=
  ⟨"bitcoin-id", "BTC", "Bitcoin", "bitcoin", some 1, some 1⟩

/-- Second sample asset. -/
def asset1 : Asset :=
  ⟨"eth-id", "ETH", "Ethereum", "ethereum", some 2, some 2⟩

/-- A stale fetched record sharing `asset0`'s id with different field
values. -/
def assetDup : Asset :=
  ⟨"bitcoin-id", "XBT", "Bitcoin-stale", "bitcoin-stale", some 5, some 5⟩

/-- A stale prior table row. -/
def row0 : Row := ⟨"OLD", "Old", "old", some 9, some 9⟩

/-- C7: for every response to a single page fetch, error code 404 yields an
empty list without failing, any other error code fails fatally with the
response's error message, and an error-free response yields its record
list. -/
theorem page_fetch_status_handling :
    (∀ (msg : String) (data : List Asset),
      get_one_page_asset_data_from_messari ⟨⟨some 404, msg⟩, data⟩ =
        Except.ok []) ∧
    (∀ (code : Int) (msg : String) (data : List Asset), code ≠ 404 →
      get_one_page_asset_data_from_messari ⟨⟨some code, msg⟩, data⟩ =
        Except.error msg) ∧
    (∀ (msg : String) (data : List Asset),
      get_one_page_asset_data_from_messari ⟨⟨none, msg⟩, data⟩ =
        Except.ok data) := by
  refine ⟨fun _ _ => rfl, ?_, fun _ _ => rfl⟩
  intro code msg data hc
  simp [get_one_page_asset_data_from_messari, hc]

/-- Witness for C7 at concrete responses: 404 is normal termination, 500 is
fatal with the response message, no error code returns the data. -/
theorem page_fetch_status_handling_witness :
    get_one_page_asset_data_from_messari ⟨⟨some 404, "not found"⟩, [asset0]⟩ =
      Except.ok [] ∧
    get_one_page_asset_data_from_messari ⟨⟨some 500, "server error"⟩, []⟩ =
      Except.error "server error" ∧
    get_one_page_asset_data_from_messari ⟨⟨none, ""⟩, [asset0]⟩ =
      Except.ok [asset0] :=
  ⟨page_fetch_status_handling.1 "not found" [asset0],
   page_fetch_status_handling.2.1 500 "server error" [] (by decide),
   page_fetch_status_handling.2.2 "" [asset0]⟩

/-- C5: the Sequencer returns the merged rows sorted ascending by the
transient `Order` (nulls last, never failing on them) with the `Order`
attribute projected away, and every merged row survives into the output. -/
theorem sequencer_sorts_ascending_and_drops_order (d : ODf) :
    sort_cryptocurrencies d =
      ((sortByOrder (d.filter isRanked)) ++
        d.filter (fun e => !(isRanked e))).map (fun e => (e.1, e.2.row)) ∧
    List.Pairwise entLe
      (sortByOrder (d.filter isRanked) ++
        d.filter (fun e => !(isRanked e))) ∧
    (sort_cryptocurrencies d).Perm (d.map (fun e => (e.1, e.2.row))) := by
  refine ⟨rfl, ?_, ?_⟩
  · rw [List.pairwise_append]
    refine ⟨sortByOrder_pairwise _, ?_, ?_⟩
    · apply pairwise_of_all
      intro a _ b hb
      have hbn := order_none_of_unranked (List.mem_filter.mp hb).2
      rw [entLe, hbn]
      exact oleB_none _
    · intro a _ b hb
      have hbn := order_none_of_unranked (List.mem_filter.mp hb).2
      rw [entLe, hbn]
      exact oleB_none _
  · apply List.Perm.map
    exact ((sortByOrder_perm _).append (List.Perm.refl _)).trans
      (List.filter_append_perm isRanked d)

/-- C8 (code knowledge): the pagination code issues exactly one request per
page; a transient failure of the very first attempt on page 1 aborts the whole
retrieval with that error instead of being retried, although the function's
own docstring promises a retry. -/
theorem no_retry_on_transient_failure :
    get_assets_from_messari
      (fun p => if p = 1 then Except.error "timeout" else Except.ok [])
      (fun _ => Equiv.refl (Fin NUM_OF_CONCURRENT_SESSIONS)) 1 =
      some (Except.error "timeout") := by
  rfl

/-- C1: for every page sequence in which all pages before the last are full
and the last is short or empty (pages past the last being empty), the
paginator returns exactly the ascending-page-index concatenation of all
pages' records — for every completion order of the concurrent requests within
each batch — and its length is the sum of the non-empty pages' sizes. -/
theorem paginator_deterministic_output (f : Nat → List Asset)
    (perms : Nat → Equiv.Perm (Fin NUM_OF_CONCURRENT_SESSIONS))
    (N PS fuel : Nat) (hN : 1 ≤ N) (hPS : 0 < PS)
    (hfull : ∀ p, 1 ≤ p → p < N → (f p).length = PS)
    (hlast : (f N).length < PS)
    (hbeyond : ∀ p, N < p → f p = [])
    (hfuel : N < 7 * fuel) :
    get_assets_from_messari (fun p => Except.ok (f p)) perms fuel =
      some (Except.ok (((List.range' 1 N).map f).flatten)) ∧
    (((List.range' 1 N).map f).flatten).length =
      ((((List.range' 1 N).map f).filter (fun pg => !(pg.isEmpty))).map
        List.length).sum := by
  constructor
  · rw [get_assets_from_messari]
    by_cases hfN : f N = []
    · have hM : ∀ p, N ≤ p → f p = [] := by
        intro p hp
        rcases Nat.eq_or_lt_of_le hp with h | h
        · rw [← h]; exact hfN
        · exact hbeyond p h
      have h := get_assets_loop_pure f perms N hM fuel 1 0 []
        (fun p h1 h2 => by
          have hl := hfull p h1 h2
          intro hnil
          rw [hnil] at hl
          simp at hl
          omega)
        (by omega) (by omega)
      rw [h, List.nil_append]
      have hflat : ((List.range' 1 N).map f).flatten =
          ((List.range' 1 (N - 1)).map f).flatten := by
        rw [show List.range' 1 N =
            List.range' 1 (N - 1) ++ List.range' (1 + (N - 1)) 1 from by
          rw [List.range'_append_1]; congr 1; omega]
        rw [List.map_append, List.flatten_append,
          show 1 + (N - 1) = N from by omega]
        simp [hfN]
      rw [hflat]
    · have hM : ∀ p, N + 1 ≤ p → f p = [] := fun p hp =>
        hbeyond p (by omega)
      have h := get_assets_loop_pure f perms (N + 1) hM fuel 1 0 []
        (fun p h1 h2 => by
          rcases Nat.lt_or_ge p N with h | h
          · have hl := hfull p h1 h
            intro hnil
            rw [hnil] at hl
            simp at hl
            omega
          · have hpN : p = N := by omega
            rw [hpN]
            exact hfN)
        (by omega) (by omega)
      rw [h, List.nil_append]
      rw [show N + 1 - 1 = N from rfl]
  · rw [List.length_flatten, sum_length_filter_nonempty]

/-- The witness page function for C1: pages 1 and 2 full (page size 2), page 3
onwards empty. -/
def wfetch1 : Nat → List Asset := fun p => if p ≤ 2 then [asset0, asset1] else []

/-- Witness for C1: three pages of page-size 2 (full, full, empty), fetched
with a non-identity completion order, produce exactly the page-ascending
concatenation, whose length 4 equals the sum of the non-empty pages' sizes. -/
theorem paginator_deterministic_output_witness :
    get_assets_from_messari (fun p => Except.ok (wfetch1 p))
      (fun _ => Equiv.swap 0 1) 1 =
      some (Except.ok [asset0, asset1, asset0, asset1]) ∧
    (((List.range' 1 3).map wfetch1).flatten).length =
      ((((List.range' 1 3).map wfetch1).filter (fun pg => !(pg.isEmpty))).map
        List.length).sum := by
  have h := paginator_deterministic_output wfetch1 (fun _ => Equiv.swap 0 1)
    3 2 1 (by decide) (by decide)
    (fun p h1 h2 => by
      simp only [wfetch1]
      rw [if_pos (by omega)]
      rfl)
    (by decide)
    (fun p hp => by
      simp only [wfetch1]
      rw [if_neg (by omega)])
    (by decide)
  exact ⟨h.1, h.2⟩

/-- C2: the pagination loop terminates exactly with the first 7-page batch
that contains an empty page (never on a page-count bound: any sufficient fuel
and any completion orders give the same result); all pages of that final batch
are still issued and their non-empty results appended; and any page function
that agrees on the fetched pages `1..7*B` produces the identical output, so
pages beyond the final batch are never consulted. -/
theorem paginator_terminates_on_empty_batch (f g : Nat → List Asset)
    (perms perms' : Nat → Equiv.Perm (Fin NUM_OF_CONCURRENT_SESSIONS))
    (B fuel fuel' : Nat) (hB : 1 ≤ B)
    (hprev : ∀ p, 1 ≤ p → p ≤ 7 * (B - 1) → f p ≠ [])
    (hempty : ∃ p, 7 * (B - 1) + 1 ≤ p ∧ p ≤ 7 * B ∧ f p = [])
    (hfuel : B ≤ fuel) (hfuel' : B ≤ fuel')
    (hagree : ∀ p, 1 ≤ p → p ≤ 7 * B → g p = f p) :
    get_assets_from_messari (fun p => Except.ok (f p)) perms fuel =
      some (Except.ok (((List.range' 1 (7 * B)).map f).flatten)) ∧
    get_assets_from_messari (fun p => Except.ok (g p)) perms' fuel' =
      some (Except.ok (((List.range' 1 (7 * B)).map f).flatten)) := by
  constructor
  · rw [get_assets_from_messari]
    have h := get_assets_loop_first_empty f perms (B - 1) fuel 1 0 []
      (fun k hk p h1 h2 => hprev p (by omega) (by omega))
      (by
        obtain ⟨p, h1, h2, h3⟩ := hempty
        exact ⟨p, by omega, by omega, h3⟩)
      (by omega)
    rw [h, List.nil_append, show B - 1 + 1 = B from by omega]
  · rw [get_assets_from_messari]
    have h := get_assets_loop_first_empty g perms' (B - 1) fuel' 1 0 []
      (fun k hk p h1 h2 => by
        rw [hagree p (by omega) (by omega)]
        exact hprev p (by omega) (by omega))
      (by
        obtain ⟨p, h1, h2, h3⟩ := hempty
        refine ⟨p, by omega, by omega, ?_⟩
        rw [hagree p (by omega) (by omega)]
        exact h3)
      (by omega)
    rw [h, List.nil_append, show B - 1 + 1 = B from by omega]
    have hmap : (List.range' 1 (7 * B)).map g = (List.range' 1 (7 * B)).map f := by
      apply List.map_congr_left
      intro p hp
      rw [List.mem_range'] at hp
      obtain ⟨t, ht, rfl⟩ := hp
      exact hagree _ (by omega) (by omega)
    rw [hmap]

/-- The witness page function for C2: pages 1..9 non-empty, pages 10 onwards
empty, so the second batch (pages 8..14) is the first containing an empty
page. -/
def wfetch2 : Nat → List Asset := fun p => if p ≤ 9 then [asset0] else []

/-- A page function agreeing with `wfetch2` on pages 1..14 but not beyond. -/
def wfetch2' : Nat → List Asset := fun p =>
  if p ≤ 9 then [asset0] else if p ≤ 14 then [] else [asset1]

/-- Witness for C2: with pages 1..9 non-empty and page 10 empty, both the
original page function and one that differs only beyond page 14 stop after
batch 2 (pages 1..14) with the same nine records, under different fuels and
completion orders. -/
theorem paginator_terminates_on_empty_batch_witness :
    get_assets_from_messari (fun p => Except.ok (wfetch2 p))
      (fun _ => Equiv.refl (Fin NUM_OF_CONCURRENT_SESSIONS)) 2 =
      some (Except.ok (List.replicate 9 asset0)) ∧
    get_assets_from_messari (fun p => Except.ok (wfetch2' p))
      (fun _ => Equiv.swap 2 3) 5 =
      some (Except.ok (List.replicate 9 asset0)) := by
  have hagree : ∀ p, 1 ≤ p → p ≤ 7 * 2 → wfetch2' p = wfetch2 p := by
    have h : ∀ p, p < 15 → wfetch2' p = wfetch2 p := by decide
    intro p h1 h2
    exact h p (by omega)
  have h := paginator_terminates_on_empty_batch wfetch2 wfetch2'
    (fun _ => Equiv.refl (Fin NUM_OF_CONCURRENT_SESSIONS))
    (fun _ => Equiv.swap 2 3) 2 2 5 (by decide)
    (by
      have h : ∀ p, p < 8 → wfetch2 p ≠ [] := by decide
      intro p h1 h2
      exact h p (by omega))
    ⟨10, by decide, by decide, by decide⟩
    (by decide) (by decide) hagree
  exact ⟨h.1, h.2⟩

/-- C6: a fatal error raised by any page request of the batch the paginator is
currently awaiting makes the whole run fail, and the persisted store is left
exactly as it was — the program never reads or writes the store before the
fetch phase has fully succeeded. -/
theorem fatal_fetch_error_preserves_store
    (f : Nat → Except String (List Asset)) (g : Nat → List Asset)
    (perms : Nat → Equiv.Perm (Fin NUM_OF_CONCURRENT_SESSIONS))
    (B fuel : Nat) (store : Option Df) (hB : 1 ≤ B)
    (hok : ∀ p, 1 ≤ p → p ≤ 7 * (B - 1) →
      f p = Except.ok (g p) ∧ g p ≠ [])
    (herr : ∃ p, 7 * (B - 1) + 1 ≤ p ∧ p ≤ 7 * B ∧
      ∃ msg, f p = Except.error msg)
    (hfuel : B ≤ fuel) :
    ∃ e, main_run f perms fuel store = some (Except.error e, store) := by
  obtain ⟨e, he⟩ := get_assets_loop_error f g perms (B - 1) fuel 1 0 []
    (fun k hk p h1 h2 => hok p (by omega) (by omega))
    (by
      obtain ⟨p, h1, h2, h3⟩ := herr
      exact ⟨p, by omega, by omega, h3⟩)
    (by omega)
  refine ⟨e, ?_⟩
  simp only [main_run, get_assets_from_messari, he]

deriving instance DecidableEq for Except

/-- The witness fetch for C6: batch 1 (pages 1..7) succeeds with non-empty
pages, page 9 of batch 2 raises a fatal error. -/
def wfetch6 : Nat → Except String (List Asset) := fun p =>
  if p ≤ 7 then Except.ok [asset0]
  else if p = 9 then Except.error "boom" else Except.ok []

/-- Witness for C6: the fatal error on page 9 (batch 2) aborts the run and the
prior store file is returned unchanged. -/
theorem fatal_fetch_error_preserves_store_witness :
    ∃ e, main_run wfetch6
      (fun _ => Equiv.refl (Fin NUM_OF_CONCURRENT_SESSIONS)) 2
      (some [("ada-id", row0)]) =
      some (Except.error e, some [("ada-id", row0)]) := by
  apply fatal_fetch_error_preserves_store wfetch6 (fun _ => [asset0]) _ 2 2
    (some [("ada-id", row0)]) (by decide)
    (by
      have h : ∀ p, p < 8 → wfetch6 p = Except.ok [asset0] ∧
          ([asset0] : List Asset) ≠ [] := by decide
      intro p h1 h2
      exact h p (by omega))
    ⟨9, by decide, by decide, "boom", by decide⟩
    (by decide)

/-- C3: for an id present in both the prior table and the fetched list
(with a single fetched occurrence `a`), the row stored for that id after the
merge-and-sort phase carries exactly the fetched asset's symbol, name, slug,
price and rank — no field of the prior row survives. -/
theorem upsert_full_record_replace (P : Df) (F : List Asset) (k : String)
    (r : Row) (a : Asset) (hnd : (P.map Prod.fst).Nodup)
    (hprior : dlookup k P = some r) (ha : a ∈ F) (hak : a.id = k)
    (huniq : F.filter (fun b => b.id == k) = [a]) :
    dlookup k (sort_cryptocurrencies (upsert_cryptocurrencies P F)) =
      some ⟨a.symbol, a.name, a.slug, a.price_usd, a.rank⟩ := by
  obtain ⟨j, hj⟩ := lastWithIdx_of_filter_singleton huniq 0
  rw [run_eq P F hnd, dlookup_append]
  have hA : dlookup k ((dedupLastIdx 0 F).map (fun e => (e.1, e.2.row))) =
      some (rowOfAsset a) := by
    rw [dlookup_map_value (fun v : ORow => v.row) k (dedupLastIdx 0 F),
      dlookup_dedupLastIdx, hj]
    rfl
  rw [hA]
  rfl

/-- Witness for C3: the prior row of id `bitcoin-id` is fully replaced by the
fetched asset's field values. -/
theorem upsert_full_record_replace_witness :
    dlookup "bitcoin-id" (sort_cryptocurrencies (upsert_cryptocurrencies
      [("bitcoin-id", row0)] [asset1, asset0])) =
      some ⟨"BTC", "Bitcoin", "bitcoin", some 1, some 1⟩ :=
  upsert_full_record_replace [("bitcoin-id", row0)] [asset1, asset0]
    "bitcoin-id" row0 asset0 (by decide) (by decide) (by decide) (by decide)
    (by decide)

/-- C4: a row whose id is only in the prior table keeps its field values
unchanged through the merge (with a null `Order`), is still present in the
Sequencer's output, and in the sorted table every row with a null `Order`
comes after all rows that received an order from the fetched list. -/
theorem prior_only_rows_retained (P : Df) (F : List Asset) (k : String)
    (r : Row) (hnd : (P.map Prod.fst).Nodup) (hk : dlookup k P = some r)
    (hnot : ∀ a ∈ F, a.id ≠ k) :
    dlookup k (upsert_cryptocurrencies P F) = some ⟨r, none⟩ ∧
    (k, r) ∈ sort_cryptocurrencies (upsert_cryptocurrencies P F) ∧
    List.Pairwise (fun x y : String × ORow =>
        x.2.order = none → y.2.order = none)
      (sortByOrder ((upsert_cryptocurrencies P F).filter isRanked) ++
        (upsert_cryptocurrencies P F).filter (fun e => !(isRanked e))) := by
  have h1 : dlookup k (upsert_cryptocurrencies P F) = some ⟨r, none⟩ := by
    rw [upsert_cryptocurrencies, dlookup_upsertFrom]
    simp only [lastWithIdx_eq_none 0 hnot]
    rw [dlookup_map_value (fun v : Row => (⟨v, none⟩ : ORow)) k P, hk]
    rfl
  refine ⟨h1, ?_, ?_⟩
  · have hmem := mem_of_dlookup h1
    have hunr : (k, (⟨r, none⟩ : ORow)) ∈
        (upsert_cryptocurrencies P F).filter (fun e => !(isRanked e)) :=
      List.mem_filter.mpr ⟨hmem, by simp [isRanked]⟩
    rw [sort_cryptocurrencies]
    exact List.mem_map.mpr ⟨(k, ⟨r, none⟩),
      List.mem_append.mpr (Or.inr hunr), rfl⟩
  · rw [List.pairwise_append]
    refine ⟨?_, ?_, ?_⟩
    · refine List.Pairwise.imp_of_mem ?_ (sortByOrder_pairwise _)
      intro x y hx hy _ hxnone
      have hx' : x ∈ (upsert_cryptocurrencies P F).filter isRanked :=
        (sortByOrder_perm _).mem_iff.mp hx
      have hrk := (List.mem_filter.mp hx').2
      rw [isRanked, hxnone] at hrk
      simp at hrk
    · apply pairwise_of_all
      intro x _ y hy
      intro _
      exact order_none_of_unranked (List.mem_filter.mp hy).2
    · intro x _ y hy _
      exact order_none_of_unranked (List.mem_filter.mp hy).2

/-- Witness for C4: the prior-only row of id `ada-id` survives unchanged and
every null-`Order` row of the sorted table sits after the ranked rows. -/
theorem prior_only_rows_retained_witness :
    dlookup "ada-id" (upsert_cryptocurrencies [("ada-id", row0)] [asset0]) =
      some ⟨row0, none⟩ ∧
    ("ada-id", row0) ∈ sort_cryptocurrencies (upsert_cryptocurrencies
      [("ada-id", row0)] [asset0]) ∧
    List.Pairwise (fun x y : String × ORow =>
        x.2.order = none → y.2.order = none)
      (sortByOrder ((upsert_cryptocurrencies [("ada-id", row0)]
          [asset0]).filter isRanked) ++
        (upsert_cryptocurrencies [("ada-id", row0)] [asset0]).filter
          (fun e => !(isRanked e))) :=
  prior_only_rows_retained [("ada-id", row0)] [asset0] "ada-id" row0
    (by decide) (by decide) (by decide)

/-- C10: when the fetched list holds several assets with the same id, the
merged table holds exactly one row for that id, carrying the field values and
the ordering rank (enumeration index) of the last occurrence. -/
theorem duplicate_fetch_ids_last_occurrence_wins (P : Df)
    (F1 F2 : List Asset) (a b : Asset) (hnd : (P.map Prod.fst).Nodup)
    (hb : b ∈ F1) (hbid : b.id = a.id) (hafter : ∀ c ∈ F2, c.id ≠ a.id) :
    dlookup a.id (upsert_cryptocurrencies P (F1 ++ a :: F2)) =
      some ⟨rowOfAsset a, some F1.length⟩ ∧
    ((upsert_cryptocurrencies P (F1 ++ a :: F2)).map Prod.fst).count a.id
      = 1 := by
  have hlw : lastWithIdx a.id 0 (F1 ++ a :: F2) = some (F1.length, a) := by
    rw [lastWithIdx_append]
    have hnone : lastWithIdx a.id (F1.length + 1) F2 = none :=
      lastWithIdx_eq_none _ hafter
    simp [lastWithIdx, hnone]
  have h1 : dlookup a.id (upsert_cryptocurrencies P (F1 ++ a :: F2)) =
      some ⟨rowOfAsset a, some F1.length⟩ := by
    rw [upsert_cryptocurrencies, dlookup_upsertFrom]
    simp only [hlw]
  refine ⟨h1, ?_⟩
  have hnodupU : ((upsert_cryptocurrencies P (F1 ++ a :: F2)).map
      Prod.fst).Nodup := by
    apply upsertFrom_nodup
    rw [show (P.map (fun e => ((e.1, ⟨e.2, none⟩) : String × ORow))).map
      Prod.fst = P.map Prod.fst from by rw [List.map_map]; rfl]
    exact hnd
  have hmem := mem_of_dlookup h1
  exact List.count_eq_one_of_mem hnodupU (List.mem_map_of_mem Prod.fst hmem)

/-- Witness for C10: fetching a stale and a fresh record of id `bitcoin-id`
keeps exactly one merged row, with the later record's values and rank 1. -/
theorem duplicate_fetch_ids_last_occurrence_wins_witness :
    dlookup "bitcoin-id" (upsert_cryptocurrencies []
      [assetDup, asset0, asset1]) =
      some ⟨⟨"BTC", "Bitcoin", "bitcoin", some 1, some 1⟩, some 1⟩ ∧
    ((upsert_cryptocurrencies [] [assetDup, asset0, asset1]).map
      Prod.fst).count "bitcoin-id" = 1 := by
  have h := duplicate_fetch_ids_last_occurrence_wins [] [assetDup] [asset1]
    asset0 assetDup (by decide) (by decide) (by decide) (by decide)
  exact ⟨h.1, h.2⟩

/-- C9: merging a fetched list into a prior table, sorting, persisting,
reloading and merging the same fetched list again yields the identical
persisted table, field values and row order included. -/
theorem merge_sort_persist_idempotent (P : Df) (F : List Asset)
    (hnd : (P.map Prod.fst).Nodup) :
    sort_cryptocurrencies (upsert_cryptocurrencies
      (read_cryptocurrencies_from_csv (save_cryptocurrencies_to_csv
        (sort_cryptocurrencies (upsert_cryptocurrencies P F)))) F) =
    sort_cryptocurrencies (upsert_cryptocurrencies P F) := by
  rw [show read_cryptocurrencies_from_csv (save_cryptocurrencies_to_csv
      (sort_cryptocurrencies (upsert_cryptocurrencies P F))) =
    sort_cryptocurrencies (upsert_cryptocurrencies P F) from rfl]
  have hndS1 := run_keys_nodup P F hnd
  rw [run_eq _ F hndS1, run_eq P F hnd]
  congr 1
  rw [List.filter_append]
  have h1 : ((dedupLastIdx 0 F).map (fun e => (e.1, e.2.row))).filter
      (fun e => !(F.any (fun a => a.id == e.1))) = [] := by
    rw [List.filter_eq_nil_iff]
    intro e he
    rcases List.mem_map.mp he with ⟨x, hx, rfl⟩
    have hid : x.1 ∈ F.map Asset.id := dedupLastIdx_keys_sub hx
    rcases List.mem_map.mp hid with ⟨c, hc, hcx⟩
    intro hcon
    have hfalse : (F.any (fun a => a.id == (x.1, x.2.row).1)) = false := by
      cases hF : F.any (fun a => a.id == (x.1, x.2.row).1)
      · rfl
      · rw [hF] at hcon
        simp at hcon
    rw [List.any_eq_false] at hfalse
    exact hfalse c hc (by simp [hcx])
  rw [h1, List.nil_append, List.filter_filter]
  apply List.filter_congr
  intro e _
  exact Bool.and_self _

/-- Witness for C9: one concrete prior table and fetched list give the same
persisted table when merged once or twice. -/
theorem merge_sort_persist_idempotent_witness :
    sort_cryptocurrencies (upsert_cryptocurrencies
      (read_cryptocurrencies_from_csv (save_cryptocurrencies_to_csv
        (sort_cryptocurrencies (upsert_cryptocurrencies
          [("ada-id", row0)] [asset0, asset1]))))
      [asset0, asset1]) =
    sort_cryptocurrencies (upsert_cryptocurrencies
      [("ada-id", row0)] [asset0, asset1]) :=
  merge_sort_persist_idempotent [("ada-id", row0)] [asset0, asset1]
    (by decide)
